import Mathlib

/-!
Shallow embedding of `src/src/lib.rs` (a from-scratch growable vector built
on a raw allocator), together with proofs about the claims of its
specification.

Modelling conventions:
* Machine addresses are abstracted away.  The backing allocation of a
  `Vector<T>` is represented by its `RawVec` record (capacity); the live,
  initialized prefix of slots `[0, len)` is represented by a `List T`
  (`elems`), so `len = elems.length`.  Raw-pointer writes/reads/copies in
  the source become the corresponding list operations on this prefix.
* `assert!` failures (contract violations) are modelled as `none` from an
  `Option`-returning operation: the assertion fires before any state is
  mutated, and the surviving-state component is absent because the process
  aborts.
* Allocation failure / `handle_alloc_error` is a fatal process abort per
  the source and is outside the model (capacities are plain `Nat`).
* `RawValIter<T>`'s `start`/`end` pointers into the element range become
  indices `start`/`stop` into the original element list.  The
  `size_of::<T>() == 0` branches of `next`/`next_back` are dead code for
  iterators produced by `Vector` because `RawVec::new` asserts
  `size_of::<T>() != 0`; the model covers the live (non-zero-sized) branch.
-/

namespace VectorRs

/-- `RawVec<T>` from the source: `{ ptr: NonNull<T>, capacity: usize }`.
The pointer (an abstract machine address chosen by the allocator) carries
no observable information in this model, so only `capacity` is kept. -/
structure RawVec where
  capacity : Nat
deriving DecidableEq, Repr

/-- The capacity transformer of `RawVec::grow`: if the capacity is 0 the
new capacity is 1 (`Layout::array::<T>(1)`), otherwise it is doubled
(`let new_cap = 2 * self.capacity`). -/
def RawVec.growCap (c : Nat) : Nat :=
  if c = 0 then 1 else 2 * c

/-- `RawVec::grow`: updates `capacity` to `growCap capacity` (the new
allocation / reallocation and the `isize::MAX` and null checks are fatal
aborts outside the model). -/
def RawVec.grow (r : RawVec) : RawVec :=
  { capacity := RawVec.growCap r.capacity }

/-- `RawVec::new`: asserts `size_of::<T>() != 0` ("Cannot allocate memory
for zero sized types"), then returns a dangling pointer and capacity 0.
`elemSize` stands for `size_of::<T>()`; `none` models the assertion abort. -/
def RawVec.new (elemSize : Nat) : Option RawVec :=
  if elemSize = 0 then none else some { capacity := 0 }

/-- `Vector<T>` from the source: `{ buf: RawVec<T>, len: usize }`.
`elems` is the list of live elements in slots `[0, len)`, so
`len = elems.length`. -/
structure Vector (T : Type) where
  buf : RawVec
  elems : List T
deriving DecidableEq, Repr

namespace Vector

variable {T : Type}

/-- `Vector::len` (via `Deref` to a slice of length `self.len`). -/
def len (v : Vector T) : Nat := v.elems.length

/-- `Vector::capacity`. -/
def capacity (v : Vector T) : Nat := v.buf.capacity

/-- `Vector::new` with `RawVec::new`'s zero-sized-type assertion;
`elemSize` stands for `size_of::<T>()`. -/
def new (T : Type) (elemSize : Nat) : Option (Vector T) :=
  (RawVec.new elemSize).map fun b => { buf := b, elems := [] }

/-- The empty vector (`Vector::new` for a non-zero-sized `T`):
capacity 0, no elements. -/
def empty (T : Type) : Vector T := { buf := { capacity := 0 }, elems := [] }

/-- `Vector::push`: grows when `len == capacity`, then writes `elem` into
slot `len` and increments `len`. -/
def push (v : Vector T) (elem : T) : Vector T :=
  let buf := if v.elems.length = v.buf.capacity then v.buf.grow else v.buf
  { buf := buf, elems := v.elems ++ [elem] }

/-- `Vector::pop`: returns `None` when `len == 0`; otherwise decrements
`len` and reads the element out of slot `len - 1` (that slot becomes
uninitialized, i.e. leaves the live prefix). -/
def pop (v : Vector T) : Option T × Vector T :=
  if h : v.elems.length = 0 then (none, v)
  else
    (some (v.elems.get ⟨v.elems.length - 1, by omega⟩),
     { v with elems := v.elems.dropLast })

/-- `Vector::insert`: asserts `index <= len` (abort modelled as `none`,
fired before any mutation), grows when at capacity, shifts slots
`[index, len)` right by one, writes `elem` at `index`, increments `len`. -/
def insert (v : Vector T) (index : Nat) (elem : T) : Option (Vector T) :=
  if index ≤ v.elems.length then
    let buf := if v.elems.length = v.buf.capacity then v.buf.grow else v.buf
    some { buf := buf,
           elems := v.elems.take index ++ elem :: v.elems.drop index }
  else none

/-- `Vector::remove`: asserts `index < len` (abort modelled as `none`,
fired before any mutation), reads the element out of slot `index`, shifts
slots `(index, len)` left by one, decrements `len`. -/
def remove (v : Vector T) (index : Nat) : Option (T × Vector T) :=
  if h : index < v.elems.length then
    some (v.elems.get ⟨index, h⟩,
          { v with elems := v.elems.take index ++ v.elems.drop (index + 1) })
  else none

end Vector

/-- `RawValIter<T>` from the source: `{ start: *const T, end: *const T }`
over a contiguous run of elements.  `arr` is the original run; the pointers
become indices, so the not-yet-yielded range `[start, end)` is
`[start, stop)` over `arr`. -/
structure RawValIter (T : Type) where
  arr : List T
  start : Nat
  stop : Nat
deriving DecidableEq, Repr

namespace RawValIter

variable {T : Type}

/-- `RawValIter::new(slice)`: `start = slice.as_ptr()`,
`end = start + slice.len()` (equal to `start` when the slice is empty). -/
def new (slice : List T) : RawValIter T :=
  { arr := slice, start := 0, stop := slice.length }

/-- `Iterator::next` for `RawValIter`: `None` when `start == end`,
otherwise reads the element at `start` and advances `start` by one.
(The `size_of::<T>() == 0` branch is dead code here, see the header.) -/
def next (it : RawValIter T) : Option T × RawValIter T :=
  if it.start = it.stop then (none, it)
  else (it.arr.get? it.start, { it with start := it.start + 1 })

/-- `DoubleEndedIterator::next_back` for `RawValIter`: `None` when
`start == end`, otherwise decrements `end` first and reads the element
now at `end`. -/
def next_back (it : RawValIter T) : Option T × RawValIter T :=
  if it.start = it.stop then (none, it)
  else (it.arr.get? (it.stop - 1), { it with stop := it.stop - 1 })

/-- `Iterator::size_hint` for `RawValIter`:
`(end - start) / size_of::<T>()` in element units, i.e. `stop - start`. -/
def size_hint (it : RawValIter T) : Nat := it.stop - it.start

/-- Calling `next` `n` times, collecting the yielded elements (stops early
if the iterator reports empty). -/
def nextN : Nat → RawValIter T → List T × RawValIter T
  | 0, it => ([], it)
  | n + 1, it =>
    match it.next with
    | (none, it') => ([], it')
    | (some x, it') =>
      let (ys, itf) := nextN n it'
      (x :: ys, itf)

/-- The `for _ in &mut *self {}` loop of the `Drop` impls: drives `next`
to exhaustion, dropping every yielded element.  The loop in the source is
unbounded; here it is run on explicit fuel, and under the iterator
invariant `size_hint` fuel drains it completely (proved below). -/
def drainAll : Nat → RawValIter T → List T
  | 0, _ => []
  | fuel + 1, it =>
    match it.next with
    | (none, _) => []
    | (some x, it') => x :: drainAll fuel it'

/-- The elements remaining in the range `[start, stop)` of `arr`. -/
def remaining (it : RawValIter T) : List T :=
  (it.arr.drop it.start).take (it.stop - it.start)

end RawValIter

/-- `IntoIter<T>` from the source: owns the `RawVec` (`_buf`) plus a
`RawValIter` over it. -/
structure IntoIter (T : Type) where
  buf : RawVec
  iter : RawValIter T
deriving DecidableEq, Repr

namespace IntoIter

variable {T : Type}

/-- `Iterator::next` for `IntoIter`: delegates to the inner `RawValIter`. -/
def next (i : IntoIter T) : Option T × IntoIter T :=
  let (r, it') := i.iter.next
  (r, { i with iter := it' })

/-- Calling `next` `n` times on an `IntoIter`, collecting yields. -/
def nextN (n : Nat) (i : IntoIter T) : List T × IntoIter T :=
  let (ys, it') := i.iter.nextN n
  (ys, { i with iter := it' })

/-- `impl Drop for IntoIter`: `for _ in &mut *self {}` — drains and drops
every remaining element (then `_buf`'s own destructor deallocates).
Returns the list of elements dropped by the loop. -/
def dropRun (i : IntoIter T) : List T :=
  i.iter.drainAll i.iter.size_hint

end IntoIter

/-- `Drain<'a, T>` from the source: a `RawValIter` over the container's
live range plus a `PhantomData` borrow (no state). -/
structure Drain (T : Type) where
  iter : RawValIter T
deriving DecidableEq, Repr

namespace Drain

variable {T : Type}

/-- `Iterator::next` for `Drain`: delegates to the inner `RawValIter`. -/
def next (d : Drain T) : Option T × Drain T :=
  let (r, it') := d.iter.next
  (r, { d with iter := it' })

/-- Calling `next` `n` times on a `Drain`, collecting yields. -/
def nextN (n : Nat) (d : Drain T) : List T × Drain T :=
  let (ys, it') := d.iter.nextN n
  (ys, { d with iter := it' })

/-- `impl Drop for Drain`: `for _ in &mut *self {}` — drains and drops
every remaining element.  Returns the list of elements dropped. -/
def dropRun (d : Drain T) : List T :=
  d.iter.drainAll d.iter.size_hint

end Drain

namespace Vector

variable {T : Type}

/-- `Vector::drain`: builds a `RawValIter` over the live range `[0, len)`,
then immediately sets `self.len = 0`, returning the `Drain` and the
container in its post-call state. -/
def drain (v : Vector T) : Drain T × Vector T :=
  (⟨RawValIter.new v.elems⟩, { v with elems := [] })

/-- `IntoIterator::into_iter` for `Vector`: builds a `RawValIter` over the
live range, moves the `RawVec` out (`forget(self)` suppresses the
container's own field drops). -/
def intoIter (v : Vector T) : IntoIter T :=
  { buf := v.buf, iter := RawValIter.new v.elems }

/-- Number of element destructors that run when a `Vector<T>` value is
destroyed.  The source has no `impl Drop for Vector`; dropping a `Vector`
drops its fields — `buf: RawVec` (whose `Drop` only deallocates the raw
buffer, lines 196–205) and `len: usize` — so no element destructor ever
runs: the live elements are leaked. -/
def elementDropsOnDestroy (_ : Vector T) : Nat := 0

/-- Pushing a whole list, left to right. -/
def pushAll (v : Vector T) (xs : List T) : Vector T :=
  xs.foldl (fun w x => w.push x) v

/-- How many of the pushes in `pushAll v xs` trigger `grow()`
(i.e. find `len == capacity`). -/
def growthCount : Vector T → List T → Nat
  | _, [] => 0
  | v, x :: xs =>
    (if v.elems.length = v.buf.capacity then 1 else 0) + growthCount (v.push x) xs

end Vector

/-- Iterating the `growCap` step `k` times from capacity `c`:
the capacity after `k` invocations of `grow()`. -/
def iterGrow : Nat → Nat → Nat
  | 0, c => c
  | k + 1, c => iterGrow k (RawVec.growCap c)

/-- The public mutating operations of `Vector`, for stating invariants
over arbitrary operation sequences. -/
inductive Op (T : Type) where
  | push (x : T)
  | pop
  | insert (i : Nat) (x : T)
  | remove (i : Nat)
  | drain

/-- One operation applied to a container; `none` models an assertion
abort (out-of-range `insert`/`remove`). -/
def Op.step {T : Type} (v : Vector T) : Op T → Option (Vector T)
  | Op.push x => some (v.push x)
  | Op.pop => some v.pop.2
  | Op.insert i x => v.insert i x
  | Op.remove i => (v.remove i).map Prod.snd
  | Op.drain => some v.drain.2

/-- Running a sequence of operations; `none` as soon as one aborts. -/
def runOps {T : Type} : List (Op T) → Vector T → Option (Vector T)
  | [], v => some v
  | op :: ops, v => (Op.step v op).bind (runOps ops)

end VectorRs

namespace VectorRs

/-! ## Theorems about the claims -/

/-- C1 (code evaluated at the failing input): a `Vector Nat` holding one
live element (`push 5` from empty) runs zero element destructors when it
is destroyed — the source has no `Drop` impl for `Vector`, so dropping the
container only runs `RawVec`'s deallocation and leaks the live element,
contradicting the claim that all `len` elements are dropped exactly once
before the storage is freed. -/
theorem vector_destroy_drops_no_elements :
    Vector.elementDropsOnDestroy ((Vector.empty Nat).push 5) = 0 ∧
      ((Vector.empty Nat).push 5).len = 1 :=
  ⟨rfl, rfl⟩

/-- C3: `push x` immediately followed by `pop` returns `x`, and afterwards
the length equals the length before the push and the first `length`
elements are unchanged. -/
theorem push_pop_roundtrip {T : Type} (v : Vector T) (x : T) :
    ((v.push x).pop).1 = some x ∧
      ((v.push x).pop).2.elems = v.elems ∧
      ((v.push x).pop).2.len = v.len := by
  have hlen : (v.push x).elems.length = v.elems.length + 1 := by
    simp [Vector.push]
  have hne : ¬((v.push x).elems.length = 0) := by omega
  have hpop : (v.push x).pop =
      (some ((v.push x).elems.get ⟨(v.push x).elems.length - 1, by omega⟩),
       { v.push x with elems := (v.push x).elems.dropLast }) := by
    simp only [Vector.pop, dif_neg hne]
  have harr : (v.push x).elems = v.elems ++ [x] := rfl
  refine ⟨?_, ?_, ?_⟩
  · rw [hpop]
    have : (v.push x).elems.get ⟨(v.push x).elems.length - 1, by omega⟩ =
        (v.elems ++ [x]).get ⟨v.elems.length, by simp⟩ := by
      congr 1
      simp [harr]
    rw [this]
    simp
  · rw [hpop]
    show ((v.push x).elems).dropLast = v.elems
    simp [harr]
  · rw [hpop]
    show ((v.push x).elems).dropLast.length = v.elems.length
    simp [harr]

/-- C5: `drain()` sets the container's length to 0 immediately at creation
of the iterator (independently of driving it), leaves the backing `RawVec`
(capacity and allocation) untouched, and a subsequent `push` succeeds and
reads back correctly. -/
theorem drain_empties_and_preserves_storage {T : Type} (v : Vector T) (x : T) :
    (v.drain).2.len = 0 ∧
      (v.drain).2.buf = v.buf ∧
      (v.drain).2.capacity = v.capacity ∧
      (v.drain).1.iter = RawValIter.new v.elems ∧
      ((v.drain).2.push x).elems = [x] ∧
      ((v.drain).2.push x).elems.get? 0 = some x := by
  refine ⟨rfl, rfl, rfl, rfl, ?_, ?_⟩
  · simp [Vector.drain, Vector.push]
  · simp [Vector.drain, Vector.push]

/-- C7: `pop()` on an empty vector returns `None` (a normal empty signal,
not a failure) and leaves the vector unchanged; on a non-empty vector it
returns the element at position `length - 1`, removes exactly that slot
from the live prefix, and decrements the length by one. -/
theorem pop_empty_none_last_otherwise {T : Type} (v : Vector T) :
    (v.len = 0 → v.pop = (none, v)) ∧
      (0 < v.len →
        v.pop.1 = v.elems.get? (v.len - 1) ∧
        v.pop.2.elems = v.elems.dropLast ∧
        v.pop.2.len = v.len - 1 ∧
        v.pop.2.buf = v.buf) := by
  constructor
  · intro h
    simp [Vector.pop, Vector.len] at h ⊢
    simp [h]
  · intro h
    have hne : ¬(v.elems.length = 0) := by
      simp only [Vector.len] at h; omega
    have hpop : v.pop =
        (some (v.elems.get ⟨v.elems.length - 1, by omega⟩),
         { v with elems := v.elems.dropLast }) := by
      simp only [Vector.pop, dif_neg hne]
    refine ⟨?_, ?_, ?_, ?_⟩
    · rw [hpop]
      exact (List.get?_eq_get (by omega)).symm
    · rw [hpop]
    · rw [hpop]
      simp [Vector.len]
    · rw [hpop]

/-- C7 witness: the theorem applied at `[7, 9]` (and the empty case at
the empty vector). -/
theorem pop_empty_none_last_otherwise_witness :
    (Vector.mk ⟨0⟩ ([] : List Nat)).pop = (none, Vector.mk ⟨0⟩ []) ∧
      (Vector.mk ⟨2⟩ [7, 9]).pop.1 = some 9 := by
  constructor
  · exact (pop_empty_none_last_otherwise (Vector.mk ⟨0⟩ ([] : List Nat))).1 rfl
  · have h := (pop_empty_none_last_otherwise (Vector.mk ⟨2⟩ [7, 9])).2 (by decide)
    rw [h.1]; rfl

/-- C8: contract violations abort before any state change: `insert` with
`index > len` hits its assertion (modelled as `none`), `remove` with
`index ≥ len` hits its assertion, and constructing a container over a
zero-sized element type (`elemSize = 0`) aborts in `RawVec::new` /
`Vector::new`. -/
theorem contract_violation_aborts {T : Type} :
    (∀ (v : Vector T) (i : Nat) (x : T), v.len < i → v.insert i x = none) ∧
      (∀ (v : Vector T) (i : Nat), v.len ≤ i → v.remove i = none) ∧
      RawVec.new 0 = none ∧
      Vector.new T 0 = none := by
  refine ⟨?_, ?_, rfl, rfl⟩
  · intro v i x h
    simp [Vector.len] at h
    simp [Vector.insert]
    omega
  · intro v i h
    simp [Vector.len] at h
    simp [Vector.remove]
    omega

/-- C8 witness: the theorem applied at a concrete two-element vector with
out-of-range indices, and at element size 0. -/
theorem contract_violation_aborts_witness :
    (Vector.mk ⟨2⟩ [4, 5]).insert 3 (0 : Nat) = none ∧
      (Vector.mk ⟨2⟩ [4, 5]).remove 2 = none := by
  constructor
  · exact (contract_violation_aborts (T := Nat)).1 (Vector.mk ⟨2⟩ [4, 5]) 3 0 (by decide)
  · exact (contract_violation_aborts (T := Nat)).2.1 (Vector.mk ⟨2⟩ [4, 5]) 2 (by decide)

end VectorRs

namespace VectorRs

/-- C4: for `index ≤ len`, `insert(index, x)` succeeds and an immediate
`remove(index)` succeeds, returns `x`, and restores the observable element
sequence (same elements, same order, same length) to what it was before
the insert. -/
theorem insert_remove_inverse {T : Type} (v : Vector T) (index : Nat) (x : T)
    (h : index ≤ v.len) :
    ((v.insert index x).bind fun v1 => v1.remove index).map
        (fun p => (p.1, p.2.elems)) = some (x, v.elems) := by
  have h' : index ≤ v.elems.length := h
  have hA : (v.elems.take index).length = index := by
    simp [List.length_take]; omega
  have hins : v.insert index x = some
      { buf := if v.elems.length = v.buf.capacity then v.buf.grow else v.buf,
        elems := v.elems.take index ++ x :: v.elems.drop index } := by
    simp only [Vector.insert, if_pos h']
  rw [hins, Option.some_bind]
  have hlt : index < (v.elems.take index ++ x :: v.elems.drop index).length := by
    simp; omega
  have hrem : Vector.remove
      { buf := if v.elems.length = v.buf.capacity then v.buf.grow else v.buf,
        elems := v.elems.take index ++ x :: v.elems.drop index } index = some
      ((v.elems.take index ++ x :: v.elems.drop index).get ⟨index, hlt⟩,
       { buf := if v.elems.length = v.buf.capacity then v.buf.grow else v.buf,
         elems := (v.elems.take index ++ x :: v.elems.drop index).take index ++
           (v.elems.take index ++ x :: v.elems.drop index).drop (index + 1) }) := by
    simp only [Vector.remove, dif_pos hlt]
  rw [hrem, Option.map_some']
  have hget : (v.elems.take index ++ x :: v.elems.drop index).get ⟨index, hlt⟩ = x := by
    simp only [List.get_eq_getElem]
    rw [List.getElem_append_right hA.le]
    simp [hA]
  have htake : (v.elems.take index ++ x :: v.elems.drop index).take index =
      v.elems.take index := List.take_left' hA
  have hdrop : (v.elems.take index ++ x :: v.elems.drop index).drop (index + 1) =
      v.elems.drop index := by
    rw [List.append_cons]
    exact List.drop_left' (by simp [hA])
  rw [Option.some.injEq, Prod.mk.injEq]
  exact ⟨hget, by rw [htake, hdrop]; exact List.take_append_drop index v.elems⟩

/-- C4 witness: the theorem applied to `[10, 20, 30]` at index 1 with
value 99 (the spec's own scenario). -/
theorem insert_remove_inverse_witness :
    1 ≤ (Vector.mk ⟨4⟩ [10, 20, 30]).len ∧
      (((Vector.mk ⟨4⟩ [10, 20, 30]).insert 1 (99 : Nat)).bind
          fun v1 => v1.remove 1).map (fun p => (p.1, p.2.elems)) =
        some (99, [10, 20, 30]) :=
  ⟨by decide, insert_remove_inverse (Vector.mk ⟨4⟩ [10, 20, 30]) 1 99 (by decide)⟩

/-- `iterGrow` one-step unfolding. -/
theorem iterGrow_succ (k c : Nat) : iterGrow (k + 1) c = iterGrow k (RawVec.growCap c) := rfl

/-- The capacity after a sequence of pushes is `growCap` iterated once per
push that triggered growth. -/
theorem pushAll_capacity {T : Type} (xs : List T) (v : Vector T) :
    (v.pushAll xs).capacity = iterGrow (v.growthCount xs) v.capacity := by
  induction xs generalizing v with
  | nil => rfl
  | cons x xs ih =>
    have hstep : v.pushAll (x :: xs) = (v.push x).pushAll xs := rfl
    rw [hstep, ih]
    by_cases hc : v.elems.length = v.buf.capacity
    · have hcount : v.growthCount (x :: xs) = (v.push x).growthCount xs + 1 := by
        simp [Vector.growthCount, hc]; omega
      have hcap : (v.push x).capacity = RawVec.growCap v.capacity := by
        simp [Vector.push, hc, RawVec.grow, Vector.capacity]
      rw [hcount, hcap]
      exact (iterGrow_succ _ _).symm
    · have hcount : v.growthCount (x :: xs) = (v.push x).growthCount xs := by
        simp [Vector.growthCount, hc]
      have hcap : (v.push x).capacity = v.capacity := by
        simp [Vector.push, hc, Vector.capacity]
      rw [hcount, hcap]

/-- Iterating `growCap` from a nonzero capacity multiplies it by `2^k`. -/
theorem iterGrow_of_ne_zero (k : Nat) : ∀ c : Nat, c ≠ 0 → iterGrow k c = 2 ^ k * c := by
  induction k with
  | zero => intro c _; simp [iterGrow]
  | succ k ih =>
    intro c hc
    rw [iterGrow_succ, ih (RawVec.growCap c) (by simp only [RawVec.growCap, if_neg hc]; omega)]
    have : RawVec.growCap c = 2 * c := by simp [RawVec.growCap, hc]
    rw [this]
    ring

/-- Iterating `growCap` `k ≥ 1` times from capacity 0 gives `2^(k-1)`. -/
theorem iterGrow_from_zero (k : Nat) (hk : 1 ≤ k) : iterGrow k 0 = 2 ^ (k - 1) := by
  match k, hk with
  | j + 1, _ =>
    rw [iterGrow_succ]
    have h0 : RawVec.growCap 0 = 1 := rfl
    rw [h0, iterGrow_of_ne_zero j 1 (by omega)]
    simp

/-- C2: `grow()` takes capacity 0 to exactly 1 and a nonzero capacity `c`
to `2 * c`; consequently, for any vector built from empty by pushes, after
the `k`-th push that triggers growth (`k ≥ 1`) the capacity is `2^(k-1)`
(stated for every push list whose growth-trigger count is `k`). -/
theorem grow_doubling {T : Type} (c : Nat) (hc : c ≠ 0) :
    RawVec.grow ⟨0⟩ = ⟨1⟩ ∧
      RawVec.grow ⟨c⟩ = ⟨2 * c⟩ ∧
      ∀ xs : List T, 1 ≤ (Vector.empty T).growthCount xs →
        ((Vector.empty T).pushAll xs).capacity =
          2 ^ ((Vector.empty T).growthCount xs - 1) := by
  refine ⟨rfl, ?_, ?_⟩
  · simp [RawVec.grow, RawVec.growCap, hc]
  · intro xs hk
    rw [pushAll_capacity]
    exact iterGrow_from_zero _ hk

/-- C2 witness: the theorem applied with `c = 2` and the spec's concrete
push sequence `[1,2,3,4,5]` (4 growth-triggering pushes, capacity 8). -/
theorem grow_doubling_witness :
    (2 : Nat) ≠ 0 ∧
      1 ≤ (Vector.empty Nat).growthCount [1, 2, 3, 4, 5] ∧
      ((Vector.empty Nat).pushAll [1, 2, 3, 4, 5]).capacity =
        2 ^ ((Vector.empty Nat).growthCount [1, 2, 3, 4, 5] - 1) :=
  ⟨by decide, by decide,
    (grow_doubling (T := Nat) 2 (by decide)).2.2 [1, 2, 3, 4, 5] (by decide)⟩

/-- One `grow()` raises the capacity strictly past its old value. -/
theorem growCap_ge_succ (c : Nat) : c + 1 ≤ RawVec.growCap c := by
  by_cases hc : c = 0
  · simp [RawVec.growCap, hc]
  · simp only [RawVec.growCap, if_neg hc]
    omega

/-- Each mutating operation preserves `len ≤ capacity`. -/
theorem step_preserves_inv {T : Type} (op : Op T) (v v' : Vector T)
    (hv : v.len ≤ v.capacity) (hstep : Op.step v op = some v') :
    v'.len ≤ v'.capacity := by
  have hv' : v.elems.length ≤ v.buf.capacity := hv
  have hg := growCap_ge_succ v.buf.capacity
  cases op with
  | push x =>
    simp only [Op.step, Option.some.injEq] at hstep
    subst hstep
    have hl : (v.push x).elems.length = v.elems.length + 1 := by
      simp [Vector.push]
    have hcap : (v.push x).buf.capacity =
        if v.elems.length = v.buf.capacity then RawVec.growCap v.buf.capacity
        else v.buf.capacity := by
      by_cases hc : v.elems.length = v.buf.capacity
      · simp [Vector.push, hc, RawVec.grow]
      · simp [Vector.push, hc]
    show (v.push x).elems.length ≤ (v.push x).buf.capacity
    rw [hl, hcap]
    by_cases hc : v.elems.length = v.buf.capacity
    · rw [if_pos hc]
      omega
    · rw [if_neg hc]
      omega
  | pop =>
    simp only [Op.step, Option.some.injEq] at hstep
    subst hstep
    by_cases h0 : v.elems.length = 0
    · have hp : (v.pop).2 = v := by
        simp [Vector.pop, h0]
      rw [hp]
      exact hv'
    · have hp : (v.pop).2 = { v with elems := v.elems.dropLast } := by
        simp [Vector.pop, h0]
      rw [hp]
      show v.elems.dropLast.length ≤ v.buf.capacity
      simp only [List.length_dropLast]
      omega
  | insert i x =>
    simp only [Op.step, Vector.insert] at hstep
    by_cases hi : i ≤ v.elems.length
    · rw [if_pos hi, Option.some.injEq] at hstep
      subst hstep
      show (v.elems.take i ++ x :: v.elems.drop i).length ≤
        (if v.elems.length = v.buf.capacity then v.buf.grow else v.buf).capacity
      have hl : (v.elems.take i ++ x :: v.elems.drop i).length =
          v.elems.length + 1 := by
        simp only [List.length_append, List.length_cons, List.length_take,
          List.length_drop]
        omega
      rw [hl]
      by_cases hc : v.elems.length = v.buf.capacity
      · rw [if_pos hc]
        show v.elems.length + 1 ≤ RawVec.growCap v.buf.capacity
        omega
      · rw [if_neg hc]
        show v.elems.length + 1 ≤ v.buf.capacity
        omega
    · rw [if_neg hi] at hstep
      cases hstep
  | remove i =>
    simp only [Op.step, Vector.remove] at hstep
    by_cases hi : i < v.elems.length
    · rw [dif_pos hi] at hstep
      simp only [Option.map_some', Option.some.injEq] at hstep
      subst hstep
      show (v.elems.take i ++ v.elems.drop (i + 1)).length ≤ v.buf.capacity
      simp only [List.length_append, List.length_take, List.length_drop]
      omega
    · rw [dif_neg hi] at hstep
      cases hstep
  | drain =>
    simp only [Op.step, Option.some.injEq] at hstep
    subst hstep
    show ([] : List T).length ≤ v.buf.capacity
    simp

/-- `len ≤ capacity` holds after every successful operation run. -/
theorem runOps_inv {T : Type} (ops : List (Op T)) (v w : Vector T)
    (hv : v.len ≤ v.capacity) (h : runOps ops v = some w) :
    w.len ≤ w.capacity := by
  induction ops generalizing v with
  | nil =>
    simp only [runOps, Option.some.injEq] at h
    subst h
    exact hv
  | cons op ops ih =>
    cases hstep : Op.step v op with
    | none =>
      rw [show runOps (op :: ops) v = (Op.step v op).bind (runOps ops) from rfl,
        hstep] at h
      cases h
    | some v1 =>
      rw [show runOps (op :: ops) v = (Op.step v op).bind (runOps ops) from rfl,
        hstep, Option.some_bind] at h
      exact ih v1 (step_preserves_inv op v v1 hv hstep) h

/-- Pushing never lowers the capacity. -/
theorem pushAll_capacity_mono {T : Type} (xs : List T) (v : Vector T) :
    v.capacity ≤ (v.pushAll xs).capacity := by
  induction xs generalizing v with
  | nil => exact le_refl _
  | cons x xs ih =>
    have hone : v.capacity ≤ (v.push x).capacity := by
      by_cases hc : v.elems.length = v.buf.capacity
      · have := growCap_ge_succ v.buf.capacity
        simp [Vector.push, hc, RawVec.grow, Vector.capacity]
        omega
      · simp [Vector.push, hc, Vector.capacity]
    exact le_trans hone (ih (v.push x))

/-- C9: for every operation sequence run from the empty container, every
reachable state satisfies `0 ≤ length ≤ capacity` (lengths are naturals,
so `0 ≤ length` is intrinsic), and across any sequence of pushes the
capacity never decreases. -/
theorem invariant_len_le_capacity {T : Type} :
    (∀ (ops : List (Op T)) (v : Vector T),
        runOps ops (Vector.empty T) = some v → v.len ≤ v.capacity) ∧
      ∀ (v : Vector T) (xs : List T), v.capacity ≤ (v.pushAll xs).capacity := by
  constructor
  · intro ops v h
    exact runOps_inv ops (Vector.empty T) v (by simp [Vector.empty, Vector.len, Vector.capacity]) h
  · intro v xs
    exact pushAll_capacity_mono xs v

/-- C9 witness: the theorem applied to the run
`push 1; push 2; pop; insert 0 7` from empty. -/
theorem invariant_len_le_capacity_witness :
    runOps [Op.push 1, Op.push 2, Op.pop, Op.insert 0 7] (Vector.empty Nat) =
        some (Vector.mk ⟨2⟩ [7, 1]) ∧
      (Vector.mk ⟨2⟩ [7, 1] : Vector Nat).len ≤ (Vector.mk ⟨2⟩ [7, 1] : Vector Nat).capacity :=
  ⟨by decide,
    (invariant_len_le_capacity (T := Nat)).1
      [Op.push 1, Op.push 2, Op.pop, Op.insert 0 7] (Vector.mk ⟨2⟩ [7, 1]) (by decide)⟩

end VectorRs

namespace VectorRs

namespace RawValIter

variable {T : Type}

/-- An arbitrary interleaving of `next` (direction `true`) and `next_back`
(direction `false`) calls, recording for every successful yield its
direction and the position (index into `arr`) it was read from. -/
def run : List Bool → RawValIter T → List (Bool × Nat) × RawValIter T
  | [], it => ([], it)
  | d :: ds, it =>
    let step := if d then it.next else it.next_back
    let pos : Nat := if d then it.start else it.stop - 1
    let rest := run ds step.2
    ((match step.1 with
      | some _ => [(d, pos)]
      | none => []) ++ rest.1, rest.2)

end RawValIter

/-- `nextN` on an in-invariant iterator yields the next `j` front
elements and advances `start` by `j`. -/
theorem nextN_spec {T : Type} :
    ∀ (j : Nat) (arr : List T) (s e : Nat), s ≤ e → e ≤ arr.length →
      j ≤ e - s →
      RawValIter.nextN j ⟨arr, s, e⟩ = ((arr.drop s).take j, ⟨arr, s + j, e⟩) := by
  intro j
  induction j with
  | zero =>
    intro arr s e _ _ _
    simp [RawValIter.nextN]
  | succ j ih =>
    intro arr s e hse hel hj
    have hne : ¬(s = e) := by omega
    have hnext : RawValIter.next ⟨arr, s, e⟩ =
        (some (arr.get ⟨s, by omega⟩), ⟨arr, s + 1, e⟩) := by
      simp only [RawValIter.next, if_neg hne]
      rw [List.get?_eq_get (by omega)]
    simp only [RawValIter.nextN, hnext]
    rw [ih arr (s + 1) e (by omega) hel (by omega)]
    have hdrop : (arr.drop s).take (j + 1) =
        arr.get ⟨s, by omega⟩ :: (arr.drop (s + 1)).take j := by
      rw [List.drop_eq_getElem_cons (show s < arr.length by omega),
        List.take_succ_cons]
      rfl
    rw [hdrop]
    have hidx : s + 1 + j = s + (j + 1) := by omega
    rw [hidx]

/-- The drop-loop (`for _ in &mut *self {}`) run with `size_hint` fuel
drains exactly the remaining range `[start, stop)`. -/
theorem drainAll_spec {T : Type} :
    ∀ (fuel : Nat) (arr : List T) (s e : Nat), s ≤ e → e ≤ arr.length →
      fuel = e - s →
      RawValIter.drainAll fuel ⟨arr, s, e⟩ = (arr.drop s).take (e - s) := by
  intro fuel
  induction fuel with
  | zero =>
    intro arr s e hse hel hf
    rw [← hf]
    simp [RawValIter.drainAll]
  | succ fuel ih =>
    intro arr s e hse hel hf
    have hne : ¬(s = e) := by omega
    have hnext : RawValIter.next ⟨arr, s, e⟩ =
        (some (arr.get ⟨s, by omega⟩), ⟨arr, s + 1, e⟩) := by
      simp only [RawValIter.next, if_neg hne]
      rw [List.get?_eq_get (by omega)]
    simp only [RawValIter.drainAll, hnext]
    rw [ih arr (s + 1) e (by omega) hel (by omega)]
    rw [List.drop_eq_getElem_cons (show s < arr.length by omega)]
    have hsub : e - s = (e - (s + 1)) + 1 := by omega
    rw [hsub, List.take_succ_cons]
    rfl

/-- C6: for both iterator kinds over a container's `n` live elements —
the consuming `IntoIter` and the borrowing `Drain` — if the iterator is
dropped after yielding only `j < n` elements via `next`, its `Drop` loop
drains and drops exactly the remaining `n - j` elements, so every element
of the original range is yielded or dropped exactly once. -/
theorem abandoned_iterator_drains_rest {T : Type} (v : Vector T) (j : Nat)
    (hj : j < v.len) :
    (((v.intoIter).nextN j).1 = v.elems.take j ∧
        ((v.intoIter).nextN j).2.dropRun = v.elems.drop j ∧
        ((v.intoIter).nextN j).1 ++ ((v.intoIter).nextN j).2.dropRun = v.elems) ∧
      (((v.drain).1.nextN j).1 = v.elems.take j ∧
        ((v.drain).1.nextN j).2.dropRun = v.elems.drop j ∧
        ((v.drain).1.nextN j).1 ++ ((v.drain).1.nextN j).2.dropRun = v.elems) := by
  have hj' : j < v.elems.length := hj
  have hN := nextN_spec j v.elems 0 v.elems.length (by omega) (le_refl _) (by omega)
  have hyield : (RawValIter.nextN j (RawValIter.new v.elems)).1 = v.elems.take j := by
    rw [show RawValIter.new v.elems = ⟨v.elems, 0, v.elems.length⟩ from rfl, hN]
    simp
  have hstate : (RawValIter.nextN j (RawValIter.new v.elems)).2 =
      ⟨v.elems, j, v.elems.length⟩ := by
    rw [show RawValIter.new v.elems = ⟨v.elems, 0, v.elems.length⟩ from rfl, hN]
    simp
  have hdrain : RawValIter.drainAll
      (RawValIter.size_hint (RawValIter.nextN j (RawValIter.new v.elems)).2)
      (RawValIter.nextN j (RawValIter.new v.elems)).2 = v.elems.drop j := by
    rw [hstate]
    show RawValIter.drainAll (v.elems.length - j) ⟨v.elems, j, v.elems.length⟩ = _
    rw [drainAll_spec (v.elems.length - j) v.elems j v.elems.length (by omega)
      (le_refl _) rfl]
    have hlen : (v.elems.drop j).length = v.elems.length - j := by simp
    rw [← hlen, List.take_length]
  have happend : v.elems.take j ++ v.elems.drop j = v.elems :=
    List.take_append_drop j v.elems
  refine ⟨⟨hyield, hdrain, ?_⟩, ⟨hyield, hdrain, ?_⟩⟩
  · show (RawValIter.nextN j (RawValIter.new v.elems)).1 ++
        RawValIter.drainAll
          (RawValIter.size_hint (RawValIter.nextN j (RawValIter.new v.elems)).2)
          (RawValIter.nextN j (RawValIter.new v.elems)).2 = v.elems
    rw [hyield, hdrain]
    exact happend
  · show (RawValIter.nextN j (RawValIter.new v.elems)).1 ++
        RawValIter.drainAll
          (RawValIter.size_hint (RawValIter.nextN j (RawValIter.new v.elems)).2)
          (RawValIter.nextN j (RawValIter.new v.elems)).2 = v.elems
    rw [hyield, hdrain]
    exact happend

/-- C6 witness: the theorem applied to the spec's scenario — a container
holding `[1, 2, 3]`, two elements consumed, iterator dropped. -/
theorem abandoned_iterator_drains_rest_witness :
    2 < (Vector.mk ⟨4⟩ [1, 2, 3] : Vector Nat).len ∧
      ((Vector.mk ⟨4⟩ [1, 2, 3] : Vector Nat).intoIter.nextN 2).1 = [1, 2] ∧
      ((Vector.mk ⟨4⟩ [1, 2, 3] : Vector Nat).intoIter.nextN 2).2.dropRun = [3] ∧
      ((Vector.mk ⟨4⟩ [1, 2, 3] : Vector Nat).drain.1.nextN 2).2.dropRun = [3] := by
  have h := abandoned_iterator_drains_rest (Vector.mk ⟨4⟩ [1, 2, 3] : Vector Nat) 2
    (by decide)
  exact ⟨by decide, h.1.1.trans (by decide), h.1.2.1.trans (by decide),
    h.2.2.1.trans (by decide)⟩

end VectorRs

namespace VectorRs

/-- On an exhausted range (`start = stop`) both directions yield nothing
and the state is unchanged. -/
theorem run_cons_stuck {T : Type} (d : Bool) (ds : List Bool) (arr : List T)
    (s : Nat) :
    RawValIter.run (d :: ds) ⟨arr, s, s⟩ = RawValIter.run ds ⟨arr, s, s⟩ := by
  cases d with
  | false =>
    simp [RawValIter.run, RawValIter.next_back]
  | true =>
    simp [RawValIter.run, RawValIter.next]

/-- A `next` call on a nonexhausted in-bounds range yields position `s`
and advances the front. -/
theorem run_cons_front {T : Type} (ds : List Bool) (arr : List T) (s e : Nat)
    (hne : s ≠ e) (hsl : s < arr.length) :
    RawValIter.run (true :: ds) ⟨arr, s, e⟩ =
      ((true, s) :: (RawValIter.run ds ⟨arr, s + 1, e⟩).1,
        (RawValIter.run ds ⟨arr, s + 1, e⟩).2) := by
  have hnext : RawValIter.next ⟨arr, s, e⟩ =
      (some (arr.get ⟨s, hsl⟩), ⟨arr, s + 1, e⟩) := by
    simp only [RawValIter.next, if_neg hne]
    rw [List.get?_eq_get hsl]
  simp [RawValIter.run, hnext]

/-- A `next_back` call on a nonexhausted in-bounds range yields position
`e - 1` and retracts the back. -/
theorem run_cons_back {T : Type} (ds : List Bool) (arr : List T) (s e : Nat)
    (hne : s ≠ e) (hel : e - 1 < arr.length) :
    RawValIter.run (false :: ds) ⟨arr, s, e⟩ =
      ((false, e - 1) :: (RawValIter.run ds ⟨arr, s, e - 1⟩).1,
        (RawValIter.run ds ⟨arr, s, e - 1⟩).2) := by
  have hnext : RawValIter.next_back ⟨arr, s, e⟩ =
      (some (arr.get ⟨e - 1, hel⟩), ⟨arr, s, e - 1⟩) := by
    simp only [RawValIter.next_back, if_neg hne]
    rw [List.get?_eq_get hel]
  simp [RawValIter.run, hnext]

/-- Characterization of any interleaved traversal starting from range
`[s, e)`: the front yields are exactly positions `s, s+1, …` in
increasing order, the back yields exactly `e-1, e-2, …` in decreasing
order, the range shrinks monotonically, and the yield count is the total
shrinkage. -/
theorem run_spec {T : Type} :
    ∀ (ops : List Bool) (arr : List T) (s e : Nat), s ≤ e → e ≤ arr.length →
      (RawValIter.run ops ⟨arr, s, e⟩).2.arr = arr ∧
      s ≤ (RawValIter.run ops ⟨arr, s, e⟩).2.start ∧
      (RawValIter.run ops ⟨arr, s, e⟩).2.start ≤
        (RawValIter.run ops ⟨arr, s, e⟩).2.stop ∧
      (RawValIter.run ops ⟨arr, s, e⟩).2.stop ≤ e ∧
      ((RawValIter.run ops ⟨arr, s, e⟩).1.filter fun p => p.1).map Prod.snd =
        List.range' s ((RawValIter.run ops ⟨arr, s, e⟩).2.start - s) ∧
      ((RawValIter.run ops ⟨arr, s, e⟩).1.filter fun p => !p.1).map Prod.snd =
        (List.range' (RawValIter.run ops ⟨arr, s, e⟩).2.stop
          (e - (RawValIter.run ops ⟨arr, s, e⟩).2.stop)).reverse ∧
      (RawValIter.run ops ⟨arr, s, e⟩).1.length =
        ((RawValIter.run ops ⟨arr, s, e⟩).2.start - s) +
          (e - (RawValIter.run ops ⟨arr, s, e⟩).2.stop) := by
  intro ops
  induction ops with
  | nil =>
    intro arr s e hse hel
    simp [RawValIter.run]
    exact hse
  | cons d ds ih =>
    intro arr s e hse hel
    by_cases heq : s = e
    · subst heq
      rw [run_cons_stuck]
      exact ih arr s s (le_refl _) hel
    · cases d with
      | true =>
        have hsl : s < arr.length := by omega
        rw [run_cons_front ds arr s e heq hsl]
        obtain ⟨harr, h1, h2, h3, hf, hb, hlen⟩ := ih arr (s + 1) e (by omega) hel
        dsimp only
        refine ⟨harr, by omega, h2, h3, ?_, ?_, ?_⟩
        · have hfc : ((true, s) :: (RawValIter.run ds ⟨arr, s + 1, e⟩).1).filter
              (fun p => p.1) =
              (true, s) :: (RawValIter.run ds ⟨arr, s + 1, e⟩).1.filter
                (fun p => p.1) := by
            simp [List.filter_cons]
          rw [hfc, List.map_cons, hf]
          have hss : (RawValIter.run ds ⟨arr, s + 1, e⟩).2.start - s =
              ((RawValIter.run ds ⟨arr, s + 1, e⟩).2.start - (s + 1)) + 1 := by
            omega
          rw [hss, List.range'_succ]
        · have hbc : ((true, s) :: (RawValIter.run ds ⟨arr, s + 1, e⟩).1).filter
              (fun p => !p.1) =
              (RawValIter.run ds ⟨arr, s + 1, e⟩).1.filter (fun p => !p.1) := by
            simp [List.filter_cons]
          rw [hbc, hb]
        · rw [List.length_cons, hlen]
          omega
      | false =>
        have hel1 : e - 1 < arr.length := by omega
        rw [run_cons_back ds arr s e heq hel1]
        obtain ⟨harr, h1, h2, h3, hf, hb, hlen⟩ :=
          ih arr s (e - 1) (by omega) (by omega)
        dsimp only
        refine ⟨harr, h1, h2, by omega, ?_, ?_, ?_⟩
        · have hfc : ((false, e - 1) :: (RawValIter.run ds ⟨arr, s, e - 1⟩).1).filter
              (fun p => p.1) =
              (RawValIter.run ds ⟨arr, s, e - 1⟩).1.filter (fun p => p.1) := by
            simp [List.filter_cons]
          rw [hfc, hf]
        · have hbc : ((false, e - 1) :: (RawValIter.run ds ⟨arr, s, e - 1⟩).1).filter
              (fun p => !p.1) =
              (false, e - 1) :: (RawValIter.run ds ⟨arr, s, e - 1⟩).1.filter
                (fun p => !p.1) := by
            simp [List.filter_cons]
          rw [hbc, List.map_cons, hb]
          have hrev : (List.range'
              (RawValIter.run ds ⟨arr, s, e - 1⟩).2.stop
              (e - (RawValIter.run ds ⟨arr, s, e - 1⟩).2.stop)).reverse =
              (e - 1) :: (List.range'
                (RawValIter.run ds ⟨arr, s, e - 1⟩).2.stop
                ((e - 1) - (RawValIter.run ds ⟨arr, s, e - 1⟩).2.stop)).reverse := by
            have hee : e - (RawValIter.run ds ⟨arr, s, e - 1⟩).2.stop =
                ((e - 1) - (RawValIter.run ds ⟨arr, s, e - 1⟩).2.stop) + 1 := by
              omega
            rw [hee, List.range'_concat, List.reverse_append]
            simp only [List.reverse_cons, List.reverse_nil, List.nil_append,
              List.singleton_append, one_mul]
            congr 1
            omega
          rw [hrev]
        · rw [List.length_cons, hlen]
          omega

end VectorRs

namespace VectorRs

/-- C10: for any interleaving of `next`/`next_back` calls on an iterator
over `n` elements, each position is yielded at most once (`Nodup`), every
yielded position is in `[0, n)`, at most `n` elements are yielded in
total, exactly `n` once both directions report empty, the front yields
positions `0, 1, …` in increasing order, the back yields `n-1, n-2, …` in
decreasing order (the two never meeting), and each single call yields the
current front (resp. back) element of the remaining range. -/
theorem interleaved_traversal_unique {T : Type} (xs : List T) (ops : List Bool) :
    ((RawValIter.run ops (RawValIter.new xs)).1.map Prod.snd).Nodup ∧
      (∀ p ∈ (RawValIter.run ops (RawValIter.new xs)).1.map Prod.snd,
        p < xs.length) ∧
      (RawValIter.run ops (RawValIter.new xs)).1.length ≤ xs.length ∧
      ((RawValIter.run ops (RawValIter.new xs)).2.start =
          (RawValIter.run ops (RawValIter.new xs)).2.stop →
        (RawValIter.run ops (RawValIter.new xs)).1.length = xs.length) ∧
      ((RawValIter.run ops (RawValIter.new xs)).1.filter fun p => p.1).map
          Prod.snd =
        List.range' 0 (RawValIter.run ops (RawValIter.new xs)).2.start ∧
      ((RawValIter.run ops (RawValIter.new xs)).1.filter fun p => !p.1).map
          Prod.snd =
        (List.range' (RawValIter.run ops (RawValIter.new xs)).2.stop
          (xs.length - (RawValIter.run ops (RawValIter.new xs)).2.stop)).reverse ∧
      ∀ it : RawValIter T, it.start ≠ it.stop →
        (it.next).1 = it.arr.get? it.start ∧
        (it.next_back).1 = it.arr.get? (it.stop - 1) := by
  have hnew : RawValIter.new xs = (⟨xs, 0, xs.length⟩ : RawValIter T) := rfl
  obtain ⟨harr, h1, h2, h3, hf, hb, hlen⟩ :=
    run_spec ops xs 0 xs.length (by omega) (le_refl _)
  rw [Nat.sub_zero] at hf hlen
  have hperm : List.Perm
      (((RawValIter.run ops ⟨xs, 0, xs.length⟩).1.filter fun p => p.1) ++
        ((RawValIter.run ops ⟨xs, 0, xs.length⟩).1.filter fun p => !p.1))
      (RawValIter.run ops ⟨xs, 0, xs.length⟩).1 :=
    List.filter_append_perm _ _
  have hmapperm : List.Perm
      ((((RawValIter.run ops ⟨xs, 0, xs.length⟩).1.filter fun p => p.1) ++
        ((RawValIter.run ops ⟨xs, 0, xs.length⟩).1.filter fun p => !p.1)).map
          Prod.snd)
      ((RawValIter.run ops ⟨xs, 0, xs.length⟩).1.map Prod.snd) :=
    hperm.map Prod.snd
  rw [List.map_append, hf, hb] at hmapperm
  rw [hnew]
  refine ⟨?_, ?_, ?_, ?_, hf, hb, ?_⟩
  · apply hmapperm.nodup
    apply List.Nodup.append
    · exact List.nodup_range' _ _
    · exact List.nodup_reverse.mpr (List.nodup_range' _ _)
    · intro a haf hab
      rw [List.mem_range'_1] at haf
      rw [List.mem_reverse, List.mem_range'_1] at hab
      omega
  · intro p hp
    have hp' := hmapperm.mem_iff.mpr hp
    rcases List.mem_append.mp hp' with hmem | hmem
    · rw [List.mem_range'_1] at hmem
      omega
    · rw [List.mem_reverse, List.mem_range'_1] at hmem
      omega
  · omega
  · intro hexh
    omega
  · intro it hne
    constructor
    · simp only [RawValIter.next, if_neg hne]
    · simp only [RawValIter.next_back, if_neg hne]

/-- C10 witness: the theorem applied to `[10, 20, 30]` with the call
sequence front, back, front (which exhausts the iterator), and to a
concrete nonexhausted iterator for the per-call yield facts. -/
theorem interleaved_traversal_unique_witness :
    (RawValIter.run [true, false, true] (RawValIter.new [10, 20, 30])).2.start =
        (RawValIter.run [true, false, true]
          (RawValIter.new [10, 20, 30])).2.stop ∧
      (RawValIter.run [true, false, true]
        (RawValIter.new [10, 20, 30])).1.length = 3 ∧
      (⟨[5, 6], 0, 2⟩ : RawValIter Nat).next.1 = some 5 ∧
      (⟨[5, 6], 0, 2⟩ : RawValIter Nat).next_back.1 = some 6 := by
  have h := interleaved_traversal_unique [10, 20, 30] [true, false, true]
  have hit := h.2.2.2.2.2.2 (⟨[5, 6], 0, 2⟩ : RawValIter Nat) (by decide)
  exact ⟨by decide, h.2.2.2.1 (by decide), hit.1.trans (by decide),
    hit.2.trans (by decide)⟩

end VectorRs
